import Mathlib

/-
Verification of the CLE loading core (`cle/backends/__init__.py`).

The Python classes Region, Regions, Symbol and Backend are shallowly
embedded below.  Python integers are unbounded, so every address, offset
and size is modelled as `Int`.  Python object identity (needed because a
`Symbol` is registered by reference into its owner's tables) is modelled
by a heap: the owning `Backend` keeps a list of symbol records, and the
tables store indices into that list.
-/

namespace CLE

/-- A region of memory that is mapped in the object's file
(`cle.backends.Region`).  Fields follow the constructor parameters
`offset, vaddr, filesize, memsize`. -/
structure Region where
  offset : Int
  vaddr : Int
  filesize : Int
  memsize : Int
deriving DecidableEq, Repr

namespace Region

/-- `Region._rebase(delta)`: shifts the region's vaddr by `delta`. -/
def _rebase (r : Region) (delta : Int) : Region :=
  { r with vaddr := r.vaddr + delta }

/-- `Region.contains_addr(addr)`: `vaddr <= addr < vaddr + memsize`. -/
def contains_addr (r : Region) (addr : Int) : Bool :=
  decide (r.vaddr ≤ addr ∧ addr < r.vaddr + r.memsize)

/-- `Region.contains_offset(offset)`: `offset <= off < offset + filesize`. -/
def contains_offset (r : Region) (off : Int) : Bool :=
  decide (r.offset ≤ off ∧ off < r.offset + r.filesize)

/-- `Region.addr_to_offset(addr)`: computes `addr - vaddr + offset`,
returning it only when `contains_offset` holds. -/
def addr_to_offset (r : Region) (addr : Int) : Option Int :=
  let off := addr - r.vaddr + r.offset
  if r.contains_offset off then some off else none

/-- `Region.offset_to_addr(offset)`: computes `off - offset + vaddr`,
returning it only when `contains_addr` holds. -/
def offset_to_addr (r : Region) (off : Int) : Option Int :=
  let addr := off - r.offset + r.vaddr
  if r.contains_addr addr then some addr else none

/-- `Region.max_addr`: `vaddr + memsize - 1`. -/
def max_addr (r : Region) : Int :=
  r.vaddr + r.memsize - 1

/-- `Region.min_addr`: `vaddr`. -/
def min_addr (r : Region) : Int :=
  r.vaddr

end Region

/-- `Section.__init__(name, offset, vaddr, size)` builds a `Region` with
`filesize = memsize = size`.  The section name has no bearing on any of
the addressing behaviour modelled here. -/
def Section.init (offset vaddr size : Int) : Region :=
  ⟨offset, vaddr, size, size⟩

/-- Python's `sorted(lst, key=lambda x: x.vaddr)`, realised as a stable
ascending insertion sort keyed by `vaddr` (used by `Regions._make_sorted`). -/
def insort_by_vaddr (r : Region) : List Region → List Region
  | [] => [r]
  | a :: rest => if a.vaddr ≤ r.vaddr then a :: insort_by_vaddr r rest
                 else r :: a :: rest

/-- `Regions._make_sorted(lst)`: a copy of the list sorted by `vaddr`. -/
def _make_sorted (lst : List Region) : List Region :=
  lst.foldl (fun acc r => insort_by_vaddr r acc) []

/-- Modelled from the spec: `key_bisect_insort_left` lives in `cle.utils`,
which is not among the sources.  Per the spec, `Regions.append` does a
sorted insert keyed by `vaddr`; left-insort puts the new element at the
leftmost position that keeps the sequence sorted. -/
def key_bisect_insort_left (lst : List Region) (region : Region) : List Region :=
  match lst with
  | [] => [region]
  | a :: rest => if region.vaddr ≤ a.vaddr then region :: a :: rest
                 else a :: key_bisect_insort_left rest region

/-- Modelled from the spec: `key_bisect_find` lives in `cle.utils`, which is
not among the sources.  Per the spec it binary-searches the vaddr-ordered
sequence for the first region whose `vaddr + memsize` exceeds the queried
address (a lower bound on end address); the result is the index of that
region, or the length of the sequence when no region qualifies. -/
def key_bisect_find (lst : List Region) (addr : Int) : Nat :=
  match lst with
  | [] => 0
  | r :: rest => if addr < r.vaddr + r.memsize then 0
                 else key_bisect_find rest addr + 1

/-- `cle.backends.Regions`: the insertion-ordered member list together with
the derived vaddr-sorted list used for lookups. -/
structure Regions where
  _list : List Region
  _sorted_list : List Region
deriving DecidableEq, Repr

namespace Regions

/-- `Regions.__init__(lst)`: keeps `lst` and derives the sorted view
(an empty `lst` yields two empty lists, as in the source). -/
def init (lst : List Region) : Regions :=
  ⟨lst, _make_sorted lst⟩

/-- `Regions.append(region)`: appends to the member list and sort-inserts
into the vaddr-ordered list. -/
def append (rs : Regions) (region : Region) : Regions :=
  ⟨rs._list ++ [region], key_bisect_insort_left rs._sorted_list region⟩

/-- `Regions._rebase(delta)`: rebases every member.  The Python lists hold
references to the same mutated `Region` objects, so both the member list
and the sorted list observe the shift. -/
def _rebase (rs : Regions) (delta : Int) : Regions :=
  ⟨rs._list.map (fun r => r._rebase delta),
   rs._sorted_list.map (fun r => r._rebase delta)⟩

end Regions

/-- Body of `Regions.find_region_containing`, parameterised by the sorted
list: locate the bisection position, give up if it is past the end, and
otherwise return the candidate only if it really contains the address. -/
def bisect_containing (lst : List Region) (addr : Int) : Option Region :=
  if h : key_bisect_find lst addr < lst.length then
    (if (lst.get ⟨key_bisect_find lst addr, h⟩).contains_addr addr then
      some (lst.get ⟨key_bisect_find lst addr, h⟩)
    else none)
  else none

/-- `Regions.find_region_containing(addr)` applied to the sorted list. -/
def Regions.find_region_containing (rs : Regions) (addr : Int) : Option Region :=
  bisect_containing rs._sorted_list addr

/-- Two regions are disjoint in virtual-address space when no address is
contained in both. -/
def regions_disjoint (a b : Region) : Prop :=
  ∀ x : Int, ¬(a.contains_addr x = true ∧ b.contains_addr x = true)

/-- Structural recursion mirror of `bisect_containing`. -/
def find_containing_rec (addr : Int) : List Region → Option Region
  | [] => none
  | r :: rest =>
      if addr < r.vaddr + r.memsize then
        (if r.contains_addr addr then some r else none)
      else find_containing_rec addr rest

/-- A symbol record (`cle.backends.Symbol`).  `resolvedby` stores the heap
index (the Python object reference) of the resolving symbol; `sym_type`
is one of the `TYPE_*` enum values. -/
structure Symbol where
  name : String
  addr : Int
  size : Int
  sym_type : Nat
  resolved : Bool
  resolvedby : Option Nat
deriving DecidableEq, Repr

/-- Lookup in a Python dict modelled as an insertion-ordered association
list: the first entry with the queried key. -/
def dictGet (d : List (Int × Nat)) (k : Int) : Option Nat :=
  (d.find? (fun p => decide (p.1 = k))).map (fun p => p.2)

/-- Python dict assignment `d[k] = v`: overwrite in place when the key is
present, otherwise append (insertion order preserved). -/
def dictSet (d : List (Int × Nat)) (k : Int) (v : Nat) : List (Int × Nat) :=
  if d.any (fun p => decide (p.1 = k)) then
    d.map (fun p => if p.1 = k then (k, v) else p)
  else d ++ [(k, v)]

/-- In-place mutation of the heap cell at an index (a Python object
update seen through every reference to that object). -/
def listModify (f : Symbol → Symbol) : Nat → List Symbol → List Symbol
  | _, [] => []
  | 0, a :: rest => f a :: rest
  | n + 1, a :: rest => a :: listModify f n rest

/-- The state of a `cle.backends.Backend` relevant to the verified claims.
`heap` is the store of `Symbol` objects owned by this image; the address
table and the resolved-imports list refer to symbols by heap index,
mirroring Python reference semantics. -/
structure Backend where
  _segments : Regions
  _sections : Regions
  heap : List Symbol
  _symbols_by_addr : List (Int × Nat)
  resolved_imports : List Nat
  mapped_base : Int
  linked_base : Int
  _is_mapped : Bool
deriving DecidableEq, Repr

namespace Backend

/-- `Backend.__init__` gives these attributes: empty region sets and
tables, `mapped_base = linked_base = 0`, `_is_mapped = False` (the flag
is set from outside, inside `cle.Loader.add_object`). -/
def init : Backend :=
  ⟨Regions.init [], Regions.init [], [], [], [], 0, 0, false⟩

/-- `Backend.image_base_delta`: `mapped_base - linked_base`. -/
def image_base_delta (b : Backend) : Int :=
  b.mapped_base - b.linked_base

end Backend

/-- Modelled from the spec: the address translator `AT` (from
`cle.address_translator`) is not among the sources.  Per the spec,
`to_mapped(linked_addr, image) = linked_addr + image.base_delta`, and
`AT.from_rva(x, owner).to_mva()` performs exactly this translation. -/
def AT_rva_to_mva (x : Int) (b : Backend) : Int :=
  x + b.image_base_delta

namespace Backend

/-- `Backend.symbols_by_addr`: the dict comprehension translating every
key of `_symbols_by_addr` into the mapped address space. -/
def symbols_by_addr (b : Backend) : List (Int × Nat) :=
  b._symbols_by_addr.map (fun p => (AT_rva_to_mva p.1 b, p.2))

/-- `Backend.rebase()`: raises `CLEOperationError` when the image is
already mapped (before touching any state); otherwise rebases the section
set and then the segment set by `image_base_delta` (the `if
self.sections:` and `if self.segments:` guards are Python truthiness on
the lists' lengths).  The method does not touch `_is_mapped`; per the
source comment that flag is set inside `cle.Loader.add_object`. -/
def rebase (b : Backend) : Except String Backend :=
  if b._is_mapped then
    Except.error "Image already rebased"
  else
    let b1 := if b._sections._list.length ≠ 0 then
        { b with _sections := b._sections._rebase b.image_base_delta }
      else b
    let b2 := if b1._segments._list.length ≠ 0 then
        { b1 with _segments := b1._segments._rebase b1.image_base_delta }
      else b1
    Except.ok b2

/-- `Backend.min_addr`: always `mapped_base`. -/
def min_addr (b : Backend) : Int :=
  b.mapped_base

end Backend

/-- Python `max` over a non-empty list (left fold of binary max from the
first element; the `[]` case never arises in the source). -/
def listMax : List Int → Int
  | [] => 0
  | a :: rest => rest.foldl max a

/-- `Backend.max_addr`: `mapped_base` when both region sets are empty,
otherwise the maximum `Region.max_addr` over `self.segments or
self.sections` (Python `or`: the segment list when non-empty, else the
section list). -/
def Backend.max_addr (b : Backend) : Int :=
  if b._segments._list.length ≠ 0 ∨ b._sections._list.length ≠ 0 then
    listMax ((if b._segments._list.length ≠ 0 then b._segments._list
              else b._sections._list).map Region.max_addr)
  else b.mapped_base

/-- The claim's reading of `max_addr`, stated from the spec's words for
comparison: the maximum over ALL owned regions, segments and sections
together, or `mapped_base` when the image owns none. -/
def Backend.claimed_max_addr (b : Backend) : Int :=
  if (b._segments._list ++ b._sections._list).length ≠ 0 then
    listMax ((b._segments._list ++ b._sections._list).map Region.max_addr)
  else b.mapped_base

/-- The scanning loop of `Backend.offset_to_addr`: at the first region
containing the offset, return that region's own translation (whatever it
is) immediately; `None` when the loop falls off the end. -/
def scan_offset_to_addr (off : Int) : List Region → Option Int
  | [] => none
  | s :: rest => if s.contains_offset off then s.offset_to_addr off
                 else scan_offset_to_addr off rest

/-- `Backend.offset_to_addr(offset)`: scans the segment list when the
image has any segment, otherwise scans the section list. -/
def Backend.offset_to_addr (b : Backend) (off : Int) : Option Int :=
  if b._segments._list.length ≠ 0 then
    scan_offset_to_addr off b._segments._list
  else
    scan_offset_to_addr off b._sections._list

/-- `Symbol.__init__(owner, name, addr, size, sym_type)`: allocates the
symbol with `resolved = False` and `resolvedby = None`, and registers it
into the owner's `_symbols_by_addr` under `addr` unless `addr == 0`
(addresses are concrete integers here, so the symbolic-AST arm of the
guard does not arise).  Returns the new owner state together with the
heap reference of the new symbol. -/
def Symbol.init (owner : Backend) (nm : String) (addr size : Int)
    (sym_type : Nat) : Backend × Nat :=
  let sid := owner.heap.length
  let sym : Symbol := ⟨nm, addr, size, sym_type, false, none⟩
  let owner1 := { owner with heap := owner.heap ++ [sym] }
  if addr ≠ 0 then
    ({ owner1 with _symbols_by_addr := dictSet owner1._symbols_by_addr addr sid },
     sid)
  else
    (owner1, sid)

/-- `Symbol.resolve(obj)`: sets `resolved = True` and `resolvedby = obj`
on the symbol object, and appends the symbol (by reference) to the
owner's `resolved_imports`. -/
def Symbol.resolve (owner : Backend) (sid : Nat) (obj : Nat) : Backend :=
  { owner with
      heap := listModify
        (fun s => { s with resolved := true, resolvedby := some obj })
        sid owner.heap,
      resolved_imports := owner.resolved_imports ++ [sid] }

/-- `Symbol.rebased_addr`: the symbol's address translated into the
global memory space through the owner's base delta; computed on read,
never cached. -/
def Symbol.rebased_addr (s : Symbol) (owner : Backend) : Int :=
  AT_rva_to_mva s.addr owner

/-- Repeated `Symbol.resolve` calls on the same symbol, one per target in
the list. -/
def resolve_iter (b : Backend) (sid : Nat) (objs : List Nat) : Backend :=
  objs.foldl (fun acc obj => Symbol.resolve acc sid obj) b

/-- Concrete populated image for the C1 counterexample: one segment, one
section, linked at 0 and assigned mapped base 8192, not yet mapped. -/
def c1_backend : Backend :=
  { Backend.init with
      _segments := Regions.init [Region.mk 0 4096 256 256],
      _sections := Regions.init [Section.init 0 4096 256],
      mapped_base := 8192 }

/-- Concrete image for the C1 amended witness. -/
def c1w_backend : Backend :=
  { Backend.init with
      _segments := Regions.init [Region.mk 0 4096 256 256],
      _sections := Regions.init [Section.init 0 4352 128],
      mapped_base := 65536 }

/-- Concrete image for the C2 counterexample: a segment ending at 9 and a
section ending at 109. -/
def c2_backend : Backend :=
  { Backend.init with
      _segments := Regions.init [Region.mk 0 0 10 10],
      _sections := Regions.init [Section.init 100 100 10] }

/-- Concrete image for the C2 amended witness. -/
def c2w_backend : Backend :=
  { Backend.init with
      _segments := Regions.init [Region.mk 0 0 10 10, Region.mk 16 64 16 16],
      _sections := Regions.init [Section.init 100 100 10] }

/-- Concrete image for the C3 counterexample: the image has a segment, no
segment contains offset 105, but a section does. -/
def c3_backend : Backend :=
  { Backend.init with
      _segments := Regions.init [Region.mk 0 0 10 10],
      _sections := Regions.init [Section.init 100 200 10] }

/-- Concrete image for the C3 amended witness. -/
def c3w_backend : Backend :=
  { Backend.init with
      _segments := Regions.init [Region.mk 0 0 10 10, Region.mk 100 200 10 10] }

/-- Concrete region set for the C5 witness, built through `append`. -/
def c5_example_regions : Regions :=
  ((Regions.init []).append (Region.mk 0 4096 256 256)).append
    (Region.mk 512 8192 80 80)

/-- Concrete owner for the C7 witness. -/
def c7w_backend : Backend :=
  { Backend.init with _symbols_by_addr := [(500, 9)] }

/-- Concrete owner for the C8 witness: one unresolved import symbol. -/
def c8w_backend : Backend :=
  { Backend.init with heap := [⟨"imp", 0, 4, 2, false, none⟩] }

/-- Concrete image for the C9 witness: a segment to be shifted, one
registered symbol at linked address 100, mapped base 8192. -/
def c9w_backend : Backend :=
  { Backend.init with
      _segments := Regions.init [Region.mk 0 0 16 16],
      heap := [⟨"f", 100, 4, 2, false, none⟩],
      _symbols_by_addr := [(100, 0)],
      mapped_base := 8192 }

/-- The image `c9w_backend` after its rebase: only the segment moved. -/
def c9w_backend_rebased : Backend :=
  { c9w_backend with _segments := Regions.init [Region.mk 0 8192 16 16] }

/-- Concrete owner for the C10 witness. -/
def c10w_backend : Backend :=
  { Backend.init with heap := [⟨"imp", 0, 4, 2, false, none⟩] }

/-
Theorems.
-/

/-- C4: for every Region constructed with `file_size <= mem_size` and every
address `a`, if `addr_to_offset a` returns `some off` then
`offset_to_addr off` returns `some a` (round-trip). -/
theorem region_addr_offset_roundtrip (r : Region) (a off : Int)
    (hinv : r.filesize ≤ r.memsize)
    (h : r.addr_to_offset a = some off) :
    r.offset_to_addr off = some a := by
  unfold Region.addr_to_offset at h
  unfold Region.offset_to_addr
  by_cases hc : r.contains_offset (a - r.vaddr + r.offset) = true
  · simp only [hc, if_true, Option.some.injEq] at h
    subst h
    have hco := hc
    unfold Region.contains_offset at hco
    rw [decide_eq_true_eq] at hco
    have haddr : a - r.vaddr + r.offset - r.offset + r.vaddr = a := by ring
    rw [haddr]
    have hca : r.contains_addr a = true := by
      unfold Region.contains_addr
      rw [decide_eq_true_eq]
      omega
    simp [hca]
  · simp only [Bool.not_eq_true] at hc
    simp [hc] at h

/-- Closed witness for C4 at a concrete region and address. -/
theorem region_addr_offset_roundtrip_witness :
    (Region.mk 16 4096 32 64).offset_to_addr 20 = some 4100 :=
  region_addr_offset_roundtrip (Region.mk 16 4096 32 64) 4100 20
    (by decide) (by decide)

/-- C6: `_rebase` is a pure translation: any address contained before is
contained (shifted by `d`) after, and translates to the same file offset. -/
theorem region_rebase_pure_translation (r : Region) (d a : Int)
    (h : r.contains_addr a = true) :
    (r._rebase d).contains_addr (a + d) = true ∧
    (r._rebase d).addr_to_offset (a + d) = r.addr_to_offset a := by
  unfold Region.contains_addr at h
  rw [decide_eq_true_eq] at h
  constructor
  · simp only [Region._rebase, Region.contains_addr, decide_eq_true_eq]
    omega
  · simp only [Region._rebase, Region.addr_to_offset, Region.contains_offset]
    have heq : a + d - (r.vaddr + d) + r.offset = a - r.vaddr + r.offset := by
      ring
    simp only [heq]

/-- Closed witness for C6 at a concrete region, delta and address. -/
theorem region_rebase_pure_translation_witness :
    ((Region.mk 0 4096 256 256)._rebase 100).contains_addr (4196 : Int) = true ∧
    ((Region.mk 0 4096 256 256)._rebase 100).addr_to_offset 4196 =
      (Region.mk 0 4096 256 256).addr_to_offset 4096 :=
  region_rebase_pure_translation (Region.mk 0 4096 256 256) 100 4096 (by decide)

theorem bisect_containing_eq_rec (lst : List Region) (addr : Int) :
    bisect_containing lst addr = find_containing_rec addr lst := by
  induction lst with
  | nil => rfl
  | cons r rest ih =>
    by_cases hend : addr < r.vaddr + r.memsize
    · simp [bisect_containing, key_bisect_find, find_containing_rec, hend]
    · rw [show find_containing_rec addr (r :: rest) = find_containing_rec addr rest
        from by simp [find_containing_rec, hend]]
      rw [← ih]
      have hkb : key_bisect_find (r :: rest) addr = key_bisect_find rest addr + 1 := by
        simp [key_bisect_find, hend]
      unfold bisect_containing
      simp only [hkb, List.length_cons]
      by_cases hlt : key_bisect_find rest addr < rest.length
      · rw [dif_pos (by omega : key_bisect_find rest addr + 1 < rest.length + 1),
          dif_pos hlt]
        rfl
      · rw [dif_neg (by omega : ¬ key_bisect_find rest addr + 1 < rest.length + 1),
          dif_neg hlt]

theorem find_containing_rec_eq_find_of_sorted (addr : Int) (lst : List Region)
    (hsorted : lst.Pairwise (fun a b => a.vaddr ≤ b.vaddr)) :
    find_containing_rec addr lst = lst.find? (fun r => r.contains_addr addr) := by
  induction lst with
  | nil => rfl
  | cons r rest ih =>
    rw [List.pairwise_cons] at hsorted
    obtain ⟨hhead, htail⟩ := hsorted
    by_cases hend : addr < r.vaddr + r.memsize
    · by_cases hcont : r.contains_addr addr = true
      · have hfind : List.find? (fun r2 => r2.contains_addr addr) (r :: rest) = some r :=
          List.find?_cons_of_pos _ (by simpa using hcont)
        rw [hfind]
        simp [find_containing_rec, hend, hcont]
      · have hlt : addr < r.vaddr := by
          unfold Region.contains_addr at hcont
          simp only [decide_eq_true_eq] at hcont
          omega
        have hrest : rest.find? (fun r2 => r2.contains_addr addr) = none := by
          rw [List.find?_eq_none]
          intro x hx hcx
          have hvx : r.vaddr ≤ x.vaddr := hhead x hx
          unfold Region.contains_addr at hcx
          simp only [decide_eq_true_eq] at hcx
          omega
        have hfind : List.find? (fun r2 => r2.contains_addr addr) (r :: rest) =
            List.find? (fun r2 => r2.contains_addr addr) rest :=
          List.find?_cons_of_neg _ (by simpa using hcont)
        rw [hfind, hrest]
        simp [find_containing_rec, hend, hcont]
    · have hcont : ¬ r.contains_addr addr = true := by
        unfold Region.contains_addr
        simp only [decide_eq_true_eq]
        omega
      have hfind : List.find? (fun r2 => r2.contains_addr addr) (r :: rest) =
          List.find? (fun r2 => r2.contains_addr addr) rest :=
        List.find?_cons_of_neg _ (by simpa using hcont)
      rw [hfind, ← ih htail]
      simp [find_containing_rec, hend]

theorem find_eq_head_filter (p : Region → Bool) (lst : List Region) :
    lst.find? p = (lst.filter p).head? := by
  induction lst with
  | nil => rfl
  | cons r rest ih =>
    by_cases hp : p r = true
    · rw [List.find?_cons_of_pos _ hp, List.filter_cons_of_pos hp]
      rfl
    · rw [List.find?_cons_of_neg _ hp, List.filter_cons_of_neg hp, ih]

theorem find_perm_of_disjoint (l1 l2 : List Region) (addr : Int)
    (hperm : l1.Perm l2) (hdisj : l1.Pairwise regions_disjoint) :
    l1.find? (fun r => r.contains_addr addr) =
    l2.find? (fun r => r.contains_addr addr) := by
  rw [find_eq_head_filter, find_eq_head_filter]
  have hpf : (l1.filter (fun r => r.contains_addr addr)).Perm
      (l2.filter (fun r => r.contains_addr addr)) := hperm.filter _
  have hpair : (l1.filter (fun r => r.contains_addr addr)).Pairwise
      regions_disjoint := List.Pairwise.filter _ hdisj
  match hf : l1.filter (fun r => r.contains_addr addr) with
  | [] =>
    rw [hf] at hpf
    have h2 : l2.filter (fun r => r.contains_addr addr) = [] :=
      List.Perm.eq_nil hpf.symm
    rw [hf, h2]
  | [a] =>
    rw [hf] at hpf
    have h2 : l2.filter (fun r => r.contains_addr addr) = [a] :=
      List.perm_singleton.mp hpf.symm
    rw [hf, h2]
  | a :: b :: rest =>
    exfalso
    rw [hf] at hpair
    have hab : regions_disjoint a b := by
      rw [List.pairwise_cons] at hpair
      exact hpair.1 b (by simp)
    have ha : a.contains_addr addr = true := by
      have : a ∈ l1.filter (fun r => r.contains_addr addr) := by
        rw [hf]; simp
      exact (List.mem_filter.mp this).2
    have hb : b.contains_addr addr = true := by
      have : b ∈ l1.filter (fun r => r.contains_addr addr) := by
        rw [hf]; simp
      exact (List.mem_filter.mp this).2
    exact hab addr ⟨ha, hb⟩

/-- C5: when the members are pairwise non-overlapping (and the container's
sorted-view invariant holds), `find_region_containing` agrees with a
brute-force linear scan over the member list: the containing region when
one exists, `none` otherwise, gaps included. -/
theorem regions_find_containing_matches_scan (rs : Regions) (addr : Int)
    (hsorted : rs._sorted_list.Pairwise (fun a b => a.vaddr ≤ b.vaddr))
    (hperm : rs._sorted_list.Perm rs._list)
    (hdisj : rs._list.Pairwise regions_disjoint) :
    rs.find_region_containing addr =
    rs._list.find? (fun r => r.contains_addr addr) := by
  have hsymm : ∀ {a b : Region}, regions_disjoint a b → regions_disjoint b a := by
    intro a b hab x hx
    exact hab x ⟨hx.2, hx.1⟩
  have hdisj2 : rs._sorted_list.Pairwise regions_disjoint :=
    (hperm.pairwise_iff hsymm).mpr hdisj
  rw [Regions.find_region_containing, bisect_containing_eq_rec,
    find_containing_rec_eq_find_of_sorted addr rs._sorted_list hsorted]
  exact find_perm_of_disjoint rs._sorted_list rs._list addr hperm hdisj2

/-- Closed witness for C5: in a concrete two-region set, the bisection
lookup agrees with the linear scan, and resolves a contained address to
its region. -/
theorem regions_find_containing_matches_scan_witness :
    c5_example_regions.find_region_containing 4200 =
      c5_example_regions._list.find? (fun r => r.contains_addr 4200) ∧
    c5_example_regions.find_region_containing 4200 =
      some (Region.mk 0 4096 256 256) := by
  refine ⟨regions_find_containing_matches_scan c5_example_regions 4200
    (by decide) (by decide) ?_, by decide⟩
  constructor
  · intro b hb
    have hb2 : b = Region.mk 512 8192 80 80 := by
      simpa [c5_example_regions, Regions.init, Regions.append,
        key_bisect_insort_left, _make_sorted] using hb
    subst hb2
    intro x hx
    obtain ⟨h1, h2⟩ := hx
    unfold Region.contains_addr at h1 h2
    rw [decide_eq_true_eq] at h1 h2
    simp at h1 h2
    omega
  · constructor
    · intro b hb
      exact absurd hb (by
        simp [c5_example_regions, Regions.init, Regions.append,
          key_bisect_insort_left, _make_sorted])
    · exact List.Pairwise.nil

theorem foldl_max_le (l : List Int) (a : Int) :
    a ≤ l.foldl max a ∧ ∀ x ∈ l, x ≤ l.foldl max a := by
  induction l generalizing a with
  | nil =>
    refine ⟨le_refl a, ?_⟩
    intro x hx
    cases hx
  | cons b rest ih =>
    have h := ih (max a b)
    refine ⟨le_trans (le_max_left a b) h.1, ?_⟩
    intro x hx
    rcases List.mem_cons.mp hx with h1 | h2
    · rw [h1]
      exact le_trans (le_max_right a b) h.1
    · exact h.2 x h2

theorem foldl_max_mem (l : List Int) (a : Int) :
    l.foldl max a = a ∨ l.foldl max a ∈ l := by
  induction l generalizing a with
  | nil => exact Or.inl rfl
  | cons b rest ih =>
    rcases ih (max a b) with h | h
    · rcases max_choice a b with hm | hm
      · exact Or.inl (by rw [List.foldl_cons, h, hm])
      · refine Or.inr ?_
        rw [List.foldl_cons, h, hm]
        exact List.mem_cons_self b rest
    · exact Or.inr (List.mem_cons_of_mem _ h)

theorem le_listMax (l : List Int) (x : Int) (hx : x ∈ l) : x ≤ listMax l := by
  cases l with
  | nil => cases hx
  | cons a rest =>
    rcases List.mem_cons.mp hx with h | h
    · subst h
      exact (foldl_max_le rest x).1
    · exact (foldl_max_le rest a).2 x h

theorem listMax_mem (l : List Int) (h : l ≠ []) : listMax l ∈ l := by
  cases l with
  | nil => exact absurd rfl h
  | cons a rest =>
    rcases foldl_max_mem rest a with h1 | h1
    · rw [show listMax (a :: rest) = rest.foldl max a from rfl, h1]
      exact List.mem_cons_self a rest
    · exact List.mem_cons_of_mem _
        (by rw [show listMax (a :: rest) = rest.foldl max a from rfl]; exact h1)

/-- C2 counterexample: on an image whose section reaches beyond every
segment, the code's `max_addr` (segments only) differs from the claim's
maximum over all owned regions. -/
theorem backend_max_addr_claim_counterexample :
    c2_backend.max_addr = 9 ∧ c2_backend.claimed_max_addr = 109 ∧
    c2_backend.max_addr ≠ c2_backend.claimed_max_addr := by
  decide

/-- C2 (amended): `min_addr` is always `mapped_base`; `max_addr` is
`mapped_base` when the image owns no region at all; when the image owns
segments, `max_addr` is the maximum `Region.max_addr` over the segments
alone (sections are ignored); only when there is no segment is it the
maximum over the sections. -/
theorem backend_min_max_addr_amended (b : Backend) :
    b.min_addr = b.mapped_base ∧
    (b._segments._list = [] → b._sections._list = [] →
      b.max_addr = b.mapped_base) ∧
    (b._segments._list ≠ [] →
      (∀ r ∈ b._segments._list, r.max_addr ≤ b.max_addr) ∧
      ∃ r ∈ b._segments._list, b.max_addr = r.max_addr) ∧
    (b._segments._list = [] → b._sections._list ≠ [] →
      (∀ r ∈ b._sections._list, r.max_addr ≤ b.max_addr) ∧
      ∃ r ∈ b._sections._list, b.max_addr = r.max_addr) := by
  refine ⟨rfl, ?_, ?_, ?_⟩
  · intro h1 h2
    simp [Backend.max_addr, h1, h2]
  · intro h1
    have hlen : b._segments._list.length ≠ 0 := by
      intro hc
      exact h1 (List.length_eq_zero.mp hc)
    have hmax : b.max_addr = listMax (b._segments._list.map Region.max_addr) := by
      simp [Backend.max_addr, hlen]
    constructor
    · intro r hr
      rw [hmax]
      exact le_listMax _ _ (List.mem_map_of_mem _ hr)
    · have hmem := listMax_mem (b._segments._list.map Region.max_addr)
        (by simp [h1])
      rw [hmax]
      rcases List.mem_map.mp hmem with ⟨r, hr, hrr⟩
      exact ⟨r, hr, hrr.symm⟩
  · intro h1 h2
    have hlen : b._segments._list.length = 0 := by rw [h1]; rfl
    have hlen2 : b._sections._list.length ≠ 0 := by
      intro hc
      exact h2 (List.length_eq_zero.mp hc)
    have hmax : b.max_addr = listMax (b._sections._list.map Region.max_addr) := by
      simp [Backend.max_addr, hlen, hlen2]
    constructor
    · intro r hr
      rw [hmax]
      exact le_listMax _ _ (List.mem_map_of_mem _ hr)
    · have hmem := listMax_mem (b._sections._list.map Region.max_addr)
        (by simp [h2])
      rw [hmax]
      rcases List.mem_map.mp hmem with ⟨r, hr, hrr⟩
      exact ⟨r, hr, hrr.symm⟩

/-- Closed witness for the amended C2 at a concrete image with two
segments and a section. -/
theorem backend_min_max_addr_amended_witness :
    c2w_backend._segments._list ≠ [] ∧
    ((∀ r ∈ c2w_backend._segments._list, r.max_addr ≤ c2w_backend.max_addr) ∧
      ∃ r ∈ c2w_backend._segments._list, c2w_backend.max_addr = r.max_addr) ∧
    c2w_backend.min_addr = c2w_backend.mapped_base := by
  have h := backend_min_max_addr_amended c2w_backend
  exact ⟨by decide, h.2.2.1 (by decide), h.1⟩

theorem offset_to_addr_some_of_contains (r : Region) (off : Int)
    (hinv : r.filesize ≤ r.memsize) (h : r.contains_offset off = true) :
    (r.offset_to_addr off).isSome = true := by
  unfold Region.contains_offset at h
  rw [decide_eq_true_eq] at h
  unfold Region.offset_to_addr
  have hca : r.contains_addr (off - r.offset + r.vaddr) = true := by
    unfold Region.contains_addr
    rw [decide_eq_true_eq]
    omega
  simp [hca]

theorem scan_offset_isSome_iff (off : Int) (l : List Region)
    (hinv : ∀ r ∈ l, r.filesize ≤ r.memsize) :
    (scan_offset_to_addr off l).isSome = true ↔
      ∃ r ∈ l, r.contains_offset off = true := by
  induction l with
  | nil => simp [scan_offset_to_addr]
  | cons s rest ih =>
    by_cases hc : s.contains_offset off = true
    · have hsome := offset_to_addr_some_of_contains s off
        (hinv s (List.mem_cons_self s rest)) hc
      have hl : scan_offset_to_addr off (s :: rest) = s.offset_to_addr off := by
        simp [scan_offset_to_addr, hc]
      rw [hl]
      constructor
      · intro _
        exact ⟨s, List.mem_cons_self s rest, hc⟩
      · intro _
        exact hsome
    · have hl : scan_offset_to_addr off (s :: rest) =
          scan_offset_to_addr off rest := by
        simp [scan_offset_to_addr, hc]
      rw [hl, ih (fun r hr => hinv r (List.mem_cons_of_mem _ hr))]
      constructor
      · rintro ⟨r, hr, hcr⟩
        exact ⟨r, List.mem_cons_of_mem _ hr, hcr⟩
      · rintro ⟨r, hr, hcr⟩
        rcases List.mem_cons.mp hr with h1 | h1
        · subst h1
          exact absurd hcr hc
        · exact ⟨r, h1, hcr⟩

/-- C3 counterexample: the image has segments, no segment contains file
offset 105, a section does contain it, yet `offset_to_addr` is absent —
the section fallback only runs when the image has no segments at all. -/
theorem backend_offset_to_addr_claim_counterexample :
    c3_backend.offset_to_addr 105 = none ∧
    (∃ r ∈ c3_backend._sections._list, r.contains_offset 105 = true) := by
  decide

/-- C3 (amended): when the image has any segment, `offset_to_addr` is
present exactly when some segment contains the offset (sections are never
consulted); only when the image has no segments is it present exactly
when some section contains the offset.  Regions are assumed to satisfy
the `filesize <= memsize` invariant. -/
theorem backend_offset_to_addr_amended (b : Backend) (off : Int)
    (hseg : ∀ r ∈ b._segments._list, r.filesize ≤ r.memsize)
    (hsec : ∀ r ∈ b._sections._list, r.filesize ≤ r.memsize) :
    (b._segments._list ≠ [] →
      ((b.offset_to_addr off).isSome = true ↔
        ∃ r ∈ b._segments._list, r.contains_offset off = true)) ∧
    (b._segments._list = [] →
      ((b.offset_to_addr off).isSome = true ↔
        ∃ r ∈ b._sections._list, r.contains_offset off = true)) := by
  constructor
  · intro h1
    have hlen : b._segments._list.length ≠ 0 := by
      intro hc
      exact h1 (List.length_eq_zero.mp hc)
    rw [show b.offset_to_addr off = scan_offset_to_addr off b._segments._list
      from by simp [Backend.offset_to_addr, hlen]]
    exact scan_offset_isSome_iff off _ hseg
  · intro h1
    have hlen : b._segments._list.length = 0 := by rw [h1]; rfl
    rw [show b.offset_to_addr off = scan_offset_to_addr off b._sections._list
      from by simp [Backend.offset_to_addr, hlen]]
    exact scan_offset_isSome_iff off _ hsec

/-- Closed witness for the amended C3 at a concrete image. -/
theorem backend_offset_to_addr_amended_witness :
    c3w_backend._segments._list ≠ [] ∧
    ((c3w_backend.offset_to_addr 105).isSome = true ↔
      ∃ r ∈ c3w_backend._segments._list, r.contains_offset 105 = true) ∧
    c3w_backend.offset_to_addr 105 = some 205 :=
  ⟨by decide,
   (backend_offset_to_addr_amended c3w_backend 105 (by decide) (by decide)).1
     (by decide),
   by decide⟩

/-- C1 counterexample: after a first `rebase()` the image is still not
marked mapped, and a second `rebase()` does not raise — it shifts the
segments a second time (from linked 4096 to 12288, then 20480). -/
theorem backend_rebase_claim_counterexample :
    (c1_backend.rebase.toOption.map (fun b => b._is_mapped)) = some false ∧
    ((c1_backend.rebase.toOption.bind (fun b => b.rebase.toOption)).map
      (fun b => b._segments._list.map Region.vaddr)) = some [20480] := by
  decide

/-- C1 (amended): `rebase()` on an image marked mapped raises the
already-mapped error and produces no new state; on an unmapped image it
shifts every owned segment's and section's vaddr by
`base_delta = mapped_base - linked_base` and leaves `_is_mapped` false —
the mapped flag is set by the loader outside `rebase`, so only a second
call made after the loader marks the image raises. -/
theorem backend_rebase_amended (b : Backend) :
    (b._is_mapped = true → b.rebase = Except.error "Image already rebased") ∧
    (b._is_mapped = false → ∃ b2, b.rebase = Except.ok b2 ∧
      b2._is_mapped = false ∧
      b2._segments._list =
        b._segments._list.map (fun r => r._rebase b.image_base_delta) ∧
      b2._sections._list =
        b._sections._list.map (fun r => r._rebase b.image_base_delta) ∧
      b2.heap = b.heap ∧
      b2._symbols_by_addr = b._symbols_by_addr ∧
      b2.mapped_base = b.mapped_base ∧
      b2.linked_base = b.linked_base) := by
  constructor
  · intro h
    simp [Backend.rebase, h]
  · intro h
    by_cases hsec : b._sections._list.length ≠ 0
    · by_cases hseg : b._segments._list.length ≠ 0
      · refine ⟨{ b with _sections := b._sections._rebase b.image_base_delta,
                         _segments := b._segments._rebase b.image_base_delta },
          ?_, h, rfl, rfl, rfl, rfl, rfl, rfl⟩
        simp [Backend.rebase, h, hsec, hseg, Backend.image_base_delta,
          Regions._rebase]
      · have hnil : b._segments._list = [] :=
          List.length_eq_zero.mp (by omega)
        refine ⟨{ b with _sections := b._sections._rebase b.image_base_delta },
          ?_, h, ?_, rfl, rfl, rfl, rfl, rfl⟩
        · simp [Backend.rebase, h, hsec, hseg, Backend.image_base_delta,
            Regions._rebase]
        · rw [hnil]
          rfl
    · by_cases hseg : b._segments._list.length ≠ 0
      · have hnil : b._sections._list = [] :=
          List.length_eq_zero.mp (by omega)
        refine ⟨{ b with _segments := b._segments._rebase b.image_base_delta },
          ?_, h, rfl, ?_, rfl, rfl, rfl, rfl⟩
        · simp [Backend.rebase, h, hsec, hseg, Backend.image_base_delta,
            Regions._rebase]
        · rw [hnil]
          rfl
      · have hnil1 : b._segments._list = [] :=
          List.length_eq_zero.mp (by omega)
        have hnil2 : b._sections._list = [] :=
          List.length_eq_zero.mp (by omega)
        refine ⟨b, ?_, h, ?_, ?_, rfl, rfl, rfl, rfl⟩
        · simp [Backend.rebase, h, hsec, hseg]
        · rw [hnil1]
          rfl
        · rw [hnil2]
          rfl

/-- Closed witness for the amended C1: on a populated unmapped image the
rebase succeeds and leaves the mapped flag false; on the same image with
the loader's mapped flag set, rebase raises. -/
theorem backend_rebase_amended_witness :
    ({ c1w_backend with _is_mapped := true } : Backend).rebase =
      Except.error "Image already rebased" ∧
    (∃ b2, c1w_backend.rebase = Except.ok b2 ∧
      b2._is_mapped = false ∧
      b2._segments._list =
        c1w_backend._segments._list.map
          (fun r => r._rebase c1w_backend.image_base_delta) ∧
      b2._sections._list =
        c1w_backend._sections._list.map
          (fun r => r._rebase c1w_backend.image_base_delta) ∧
      b2.heap = c1w_backend.heap ∧
      b2._symbols_by_addr = c1w_backend._symbols_by_addr ∧
      b2.mapped_base = c1w_backend.mapped_base ∧
      b2.linked_base = c1w_backend.linked_base) :=
  ⟨(backend_rebase_amended { c1w_backend with _is_mapped := true }).1 rfl,
   (backend_rebase_amended c1w_backend).2 rfl⟩

theorem dictGet_overwrite (d : List (Int × Nat)) (k : Int) (v : Nat) :
    dictGet (d.map (fun p => if p.1 = k then (k, v) else p)) k =
      if d.any (fun p => decide (p.1 = k)) then some v else none := by
  induction d with
  | nil => rfl
  | cons a rest ih =>
    by_cases ha : a.1 = k
    · have hmap : (a :: rest).map (fun p => if p.1 = k then (k, v) else p) =
          (k, v) :: rest.map (fun p => if p.1 = k then (k, v) else p) := by
        simp [ha]
      have hfind : List.find? (fun p => decide (p.1 = k))
          ((k, v) :: rest.map (fun p => if p.1 = k then (k, v) else p)) =
          some (k, v) :=
        List.find?_cons_of_pos _ (by simp)
      have hany : (a :: rest).any (fun p => decide (p.1 = k)) = true := by
        simp [List.any_cons, ha]
      rw [hmap, dictGet, hfind, hany]
      rfl
    · have hmap : (a :: rest).map (fun p => if p.1 = k then (k, v) else p) =
          a :: rest.map (fun p => if p.1 = k then (k, v) else p) := by
        simp [ha]
      have hfind : List.find? (fun p => decide (p.1 = k))
          (a :: rest.map (fun p => if p.1 = k then (k, v) else p)) =
          List.find? (fun p => decide (p.1 = k))
            (rest.map (fun p => if p.1 = k then (k, v) else p)) :=
        List.find?_cons_of_neg _ (by simp [ha])
      have hany : (a :: rest).any (fun p => decide (p.1 = k)) =
          rest.any (fun p => decide (p.1 = k)) := by
        simp [List.any_cons, ha]
      rw [hmap, dictGet, hfind, hany]
      exact ih

theorem dictGet_append_new (d : List (Int × Nat)) (k : Int) (v : Nat)
    (h : d.any (fun p => decide (p.1 = k)) = false) :
    dictGet (d ++ [(k, v)]) k = some v := by
  induction d with
  | nil =>
    rw [List.nil_append, dictGet]
    rw [List.find?_cons_of_pos _ (by simp)]
    rfl
  | cons a rest ih =>
    rw [List.any_cons] at h
    have ha : (decide (a.1 = k)) = false := by
      cases hd : decide (a.1 = k) with
      | false => rfl
      | true => rw [hd] at h; simp at h
    have hrest : rest.any (fun p => decide (p.1 = k)) = false := by
      cases hr : rest.any (fun p => decide (p.1 = k)) with
      | false => rfl
      | true => rw [hr] at h; simp at h
    rw [List.cons_append, dictGet,
      List.find?_cons_of_neg _ (by simp at ha ⊢; exact ha)]
    exact ih hrest

theorem dictGet_dictSet_self (d : List (Int × Nat)) (k : Int) (v : Nat) :
    dictGet (dictSet d k v) k = some v := by
  unfold dictSet
  by_cases hany : d.any (fun p => decide (p.1 = k)) = true
  · rw [if_pos hany, dictGet_overwrite, if_pos hany]
  · have hf : d.any (fun p => decide (p.1 = k)) = false :=
      Bool.not_eq_true _ ▸ (by simpa using hany)
    rw [if_neg (by simp [hf]), dictGet_append_new d k v hf]

theorem dictGet_map_ne (d : List (Int × Nat)) (k : Int) (v : Nat) (k2 : Int)
    (h : k2 ≠ k) :
    dictGet (d.map (fun p => if p.1 = k then (k, v) else p)) k2 =
      dictGet d k2 := by
  induction d with
  | nil => rfl
  | cons a rest ih =>
    by_cases ha : a.1 = k
    · have hmap : (a :: rest).map (fun p => if p.1 = k then (k, v) else p) =
          (k, v) :: rest.map (fun p => if p.1 = k then (k, v) else p) := by
        simp [ha]
      rw [hmap, dictGet,
        List.find?_cons_of_neg _ (by simp; omega), dictGet,
        List.find?_cons_of_neg _ (by simp; omega)] at *
      exact ih
    · have hmap : (a :: rest).map (fun p => if p.1 = k then (k, v) else p) =
          a :: rest.map (fun p => if p.1 = k then (k, v) else p) := by
        simp [ha]
      rw [hmap]
      by_cases ha2 : a.1 = k2
      · rw [dictGet, List.find?_cons_of_pos _ (by simp [ha2]), dictGet,
          List.find?_cons_of_pos _ (by simp [ha2])]
      · rw [dictGet, List.find?_cons_of_neg _ (by simp [ha2]), dictGet,
          List.find?_cons_of_neg _ (by simp [ha2])]
        exact ih

theorem dictGet_append_ne (d : List (Int × Nat)) (k : Int) (v : Nat) (k2 : Int)
    (h : k2 ≠ k) :
    dictGet (d ++ [(k, v)]) k2 = dictGet d k2 := by
  induction d with
  | nil =>
    rw [List.nil_append, dictGet, List.find?_cons_of_neg _ (by simp; omega)]
    rfl
  | cons a rest ih =>
    by_cases ha : a.1 = k2
    · rw [List.cons_append, dictGet, List.find?_cons_of_pos _ (by simp [ha]),
        dictGet, List.find?_cons_of_pos _ (by simp [ha])]
    · rw [List.cons_append, dictGet, List.find?_cons_of_neg _ (by simp [ha]),
        dictGet, List.find?_cons_of_neg _ (by simp [ha])]
      exact ih

theorem dictGet_dictSet_other (d : List (Int × Nat)) (k : Int) (v : Nat)
    (k2 : Int) (h : k2 ≠ k) :
    dictGet (dictSet d k v) k2 = dictGet d k2 := by
  unfold dictSet
  by_cases hany : d.any (fun p => decide (p.1 = k)) = true
  · rw [if_pos hany]
    exact dictGet_map_ne d k v k2 h
  · rw [if_neg hany]
    exact dictGet_append_ne d k v k2 h

/-- C7: constructing a Symbol registers it in the owner's address-indexed
table under its address exactly when the address is not the zero
sentinel; the rest of the table is untouched, and with a zero address the
table is unchanged entirely. -/
theorem symbol_init_registers (owner : Backend) (nm : String)
    (addr size : Int) (t : Nat) (b2 : Backend) (sid : Nat)
    (h : Symbol.init owner nm addr size t = (b2, sid)) :
    (addr ≠ 0 → dictGet b2._symbols_by_addr addr = some sid) ∧
    (addr = 0 → b2._symbols_by_addr = owner._symbols_by_addr) ∧
    (∀ k, k ≠ addr →
      dictGet b2._symbols_by_addr k = dictGet owner._symbols_by_addr k) := by
  unfold Symbol.init at h
  by_cases ha : addr ≠ 0
  · rw [if_pos ha] at h
    cases h
    refine ⟨?_, ?_, ?_⟩
    · intro _
      exact dictGet_dictSet_self _ _ _
    · intro h0
      exact absurd h0 ha
    · intro k hk
      exact dictGet_dictSet_other _ _ _ _ hk
  · rw [if_neg ha] at h
    cases h
    refine ⟨?_, ?_, ?_⟩
    · intro hne
      exact absurd hne ha
    · intro _
      rfl
    · intro k hk
      rfl

/-- Closed witness for C7: registering a fresh symbol at address 100 into
an owner that already maps 500; the new key is present, the old key is
untouched. -/
theorem symbol_init_registers_witness :
    (100 : Int) ≠ 0 ∧
    dictGet (Symbol.init c7w_backend "sym" 100 4 2).1._symbols_by_addr 100 =
      some (Symbol.init c7w_backend "sym" 100 4 2).2 ∧
    dictGet (Symbol.init c7w_backend "sym" 100 4 2).1._symbols_by_addr 500 =
      dictGet c7w_backend._symbols_by_addr 500 := by
  have h := symbol_init_registers c7w_backend "sym" 100 4 2
    (Symbol.init c7w_backend "sym" 100 4 2).1
    (Symbol.init c7w_backend "sym" 100 4 2).2 rfl
  exact ⟨by decide, h.1 (by decide), h.2.2 500 (by decide)⟩

theorem listModify_get_self (f : Symbol → Symbol) (l : List Symbol) (i : Nat)
    (s : Symbol) (h : l.get? i = some s) :
    (listModify f i l).get? i = some (f s) := by
  induction l generalizing i with
  | nil => simp at h
  | cons a rest ih =>
    cases i with
    | zero =>
      simp at h
      rw [h]
      rfl
    | succ n =>
      simp at h
      show (listModify f n rest).get? n = some (f s)
      exact ih n (by simpa using h)

/-- C8: resolving an unresolved import symbol marks it resolved, records
the target as its resolver, and puts it into the owner's resolved-imports
list exactly once (the list did not contain it before, as at
construction). -/
theorem symbol_resolve_once (b : Backend) (sid obj : Nat) (s : Symbol)
    (hs : b.heap.get? sid = some s)
    (hres : s.resolved = false)
    (hcount : b.resolved_imports.count sid = 0) :
    (Symbol.resolve b sid obj).heap.get? sid =
      some { s with resolved := true, resolvedby := some obj } ∧
    (Symbol.resolve b sid obj).resolved_imports.count sid = 1 := by
  constructor
  · exact listModify_get_self _ _ _ _ hs
  · show (b.resolved_imports ++ [sid]).count sid = 1
    rw [List.count_append, hcount, List.count_cons_self, List.count_nil]

/-- Closed witness for C8 on a one-symbol owner. -/
theorem symbol_resolve_once_witness :
    (Symbol.resolve c8w_backend 0 7).heap.get? 0 =
      some ⟨"imp", 0, 4, 2, true, some 7⟩ ∧
    (Symbol.resolve c8w_backend 0 7).resolved_imports.count 0 = 1 :=
  symbol_resolve_once c8w_backend 0 7 ⟨"imp", 0, 4, 2, false, none⟩
    rfl rfl rfl

theorem dictGet_map_shift (d : List (Int × Nat)) (c k : Int) :
    dictGet (d.map (fun p => (p.1 + c, p.2))) (k + c) = dictGet d k := by
  induction d with
  | nil => rfl
  | cons a rest ih =>
    by_cases ha : a.1 = k
    · rw [List.map_cons, dictGet, List.find?_cons_of_pos _ (by simp [ha]),
        dictGet, List.find?_cons_of_pos _ (by simp [ha])]
      simp
    · rw [List.map_cons, dictGet, List.find?_cons_of_neg _ (by simp; omega),
        dictGet, List.find?_cons_of_neg _ (by simp [ha])]
      exact ih

theorem rebase_ok_state (b b2 : Backend) (h : b.rebase = Except.ok b2) :
    b2.heap = b.heap ∧ b2._symbols_by_addr = b._symbols_by_addr := by
  by_cases hm : b._is_mapped = true
  · simp [Backend.rebase, hm] at h
  · by_cases hsec : b._sections._list.length ≠ 0 <;>
      by_cases hseg : b._segments._list.length ≠ 0 <;>
      simp [Backend.rebase, hm, hsec, hseg] at h <;>
      subst h <;>
      exact ⟨rfl, rfl⟩

/-- C9: a successful `rebase()` leaves every symbol record and the
address-indexed table untouched (symbol addresses are never mutated);
translation happens only on read: `symbols_by_addr` exposes each entry of
the internal table under `addr + base_delta`, and `rebased_addr` is
`addr + base_delta`, both computed from the owner's current base delta. -/
theorem rebase_never_mutates_symbols (b b2 : Backend)
    (h : b.rebase = Except.ok b2) :
    b2.heap = b.heap ∧
    b2._symbols_by_addr = b._symbols_by_addr ∧
    (∀ k v, dictGet b._symbols_by_addr k = some v →
      dictGet b.symbols_by_addr (k + b.image_base_delta) = some v) ∧
    (∀ s : Symbol, s.rebased_addr b = s.addr + b.image_base_delta) := by
  obtain ⟨h1, h2⟩ := rebase_ok_state b b2 h
  refine ⟨h1, h2, ?_, fun s => rfl⟩
  intro k v hkv
  rw [show b.symbols_by_addr = b._symbols_by_addr.map
    (fun p => (p.1 + b.image_base_delta, p.2)) from rfl]
  rw [dictGet_map_shift, hkv]

/-- Closed witness for C9: a concrete rebase moves the segment but not
the symbol heap or table; the translated table exposes the symbol at its
mapped address. -/
theorem rebase_never_mutates_symbols_witness :
    c9w_backend.rebase = Except.ok c9w_backend_rebased ∧
    c9w_backend_rebased.heap = c9w_backend.heap ∧
    c9w_backend_rebased._symbols_by_addr = c9w_backend._symbols_by_addr ∧
    dictGet c9w_backend.symbols_by_addr
      (100 + c9w_backend.image_base_delta) = some 0 ∧
    Symbol.rebased_addr ⟨"f", 100, 4, 2, false, none⟩ c9w_backend =
      100 + c9w_backend.image_base_delta := by
  have h := rebase_never_mutates_symbols c9w_backend c9w_backend_rebased rfl
  exact ⟨rfl, h.1, h.2.1, h.2.2.1 100 0 rfl,
    h.2.2.2 ⟨"f", 100, 4, 2, false, none⟩⟩

theorem resolve_iter_count (b : Backend) (sid : Nat) (objs : List Nat) :
    (resolve_iter b sid objs).resolved_imports.count sid =
      b.resolved_imports.count sid + objs.length := by
  induction objs generalizing b with
  | nil => simp [resolve_iter]
  | cons o rest ih =>
    show (resolve_iter (Symbol.resolve b sid o) sid rest).resolved_imports.count
      sid = _
    rw [ih]
    show (b.resolved_imports ++ [sid]).count sid + rest.length = _
    rw [List.count_append, List.count_cons_self, List.count_nil]
    simp
    omega

theorem resolve_iter_heap (b : Backend) (sid : Nat) (objs : List Nat)
    (s : Symbol) (hs : b.heap.get? sid = some s) (hne : objs ≠ []) :
    (resolve_iter b sid objs).heap.get? sid =
      some { s with resolved := true, resolvedby := objs.getLast? } := by
  induction objs generalizing b s with
  | nil => exact absurd rfl hne
  | cons o rest ih =>
    cases rest with
    | nil =>
      show (Symbol.resolve b sid o).heap.get? sid = _
      exact listModify_get_self _ _ _ _ hs
    | cons o2 rest2 =>
      have h1 : (Symbol.resolve b sid o).heap.get? sid =
          some { s with resolved := true, resolvedby := some o } :=
        listModify_get_self _ _ _ _ hs
      have h2 := ih (Symbol.resolve b sid o)
        { s with resolved := true, resolvedby := some o } h1 (by simp)
      show (resolve_iter (Symbol.resolve b sid o) sid (o2 :: rest2)).heap.get?
        sid = _
      rw [h2]
      simp

/-- C10: re-resolving silently overwrites: after a sequence of `resolve`
calls on the same fresh symbol, the symbol is resolved with `resolvedby`
the last target, and the owner's resolved-imports list counts the symbol
once per call (duplicates accumulate). -/
theorem symbol_resolve_repeated (b : Backend) (sid : Nat) (objs : List Nat)
    (s : Symbol) (hs : b.heap.get? sid = some s)
    (hcount : b.resolved_imports.count sid = 0) (hne : objs ≠ []) :
    (resolve_iter b sid objs).resolved_imports.count sid = objs.length ∧
    (resolve_iter b sid objs).heap.get? sid =
      some { s with resolved := true, resolvedby := objs.getLast? } := by
  constructor
  · rw [resolve_iter_count, hcount]
    omega
  · exact resolve_iter_heap b sid objs s hs hne

/-- Closed witness for C10: two resolve calls leave two copies in the
resolved-imports list and the second target as resolver. -/
theorem symbol_resolve_repeated_witness :
    (resolve_iter c10w_backend 0 [3, 4]).resolved_imports.count 0 = 2 ∧
    (resolve_iter c10w_backend 0 [3, 4]).heap.get? 0 =
      some ⟨"imp", 0, 4, 2, true, some 4⟩ :=
  symbol_resolve_repeated c10w_backend 0 [3, 4] ⟨"imp", 0, 4, 2, false, none⟩
    rfl rfl (by decide)

end CLE
